import Mathlib

/-!
Verification of the colly-bolt-storage adapter (`storage.go`).

The store is bbolt: each bucket is a B-tree, i.e. a finite map whose keys
are byte strings ordered by `bytes.Compare` (byte-lexicographic, a strict
prefix sorts first).  We embed a bucket as an association list of
(key, value) pairs of byte lists, kept sorted strictly by that order, with
`Put`, `Get`, cursor `First` and delete-at-cursor modelled on the sorted
representation.  The `Storage` struct's observable state is the three
buckets `requests`, `cookies`, `queue` plus the queue bucket's persisted
sequence counter (a uint64, so arithmetic is mod 2^64).
-/

namespace CollyBolt

/-- Bytes are modelled as `Nat` (always < 256 in keys produced by the code). -/
abbrev Bytes := List Nat

/-- `bytes.Compare a b < 0`: byte-lexicographic strict order, shorter prefix first.
This is the key order of a bbolt bucket's cursor. -/
def lexLt : Bytes → Bytes → Bool
  | [], [] => false
  | [], _ :: _ => true
  | _ :: _, [] => false
  | a :: as, b :: bs => if a < b then true else if b < a then false else lexLt as bs

/-- A bucket: association list sorted strictly by `lexLt` on keys. -/
abbrev Bucket := List (Bytes × Bytes)

/-- `Bucket.Put`: insert or replace, keeping the list sorted (B-tree insert). -/
def bPut (k v : Bytes) : Bucket → Bucket
  | [] => [(k, v)]
  | (k', v') :: rest =>
    if lexLt k k' then (k, v) :: (k', v') :: rest
    else if k = k' then (k, v) :: rest
    else (k', v') :: bPut k v rest

/-- `Bucket.Get`: `some v` if the key is present, `none` (Go `nil`) otherwise. -/
def bGet (k : Bytes) : Bucket → Option Bytes
  | [] => none
  | (k', v') :: rest => if k = k' then some v' else bGet k rest

/-- The strict sortedness invariant bbolt maintains for every bucket. -/
def bSorted : Bucket → Bool
  | [] => true
  | [_] => true
  | p :: q :: rest => lexLt p.1 q.1 && bSorted (q :: rest)

/-- `u64ToBytes` from storage.go: eight bytes, least-significant byte first. -/
def u64ToBytes (n : Nat) : Bytes :=
  [ n % 256,
    (n >>> 8) % 256,
    (n >>> 16) % 256,
    (n >>> 24) % 256,
    (n >>> 32) % 256,
    (n >>> 40) % 256,
    (n >>> 48) % 256,
    (n >>> 56) % 256 ]

/-- Errors surfaced by the storage operations: the distinguished
`ErrEmptyQueue`, or an opaque error from the underlying store. -/
inductive Err where
  | emptyQueue : Err
  | storage : String → Err
deriving DecidableEq, Repr

/-- `ErrEmptyQueue` from storage.go. -/
def ErrEmptyQueue : Err := .emptyQueue

/-- Observable state of an initialized `Storage`: the three buckets and the
queue bucket's sequence counter. -/
structure DB where
  requests : Bucket
  cookies : Bucket
  queue : Bucket
  seq : Nat
deriving DecidableEq, Repr

/-- A freshly initialized store: three empty buckets, sequence 0. -/
def initDB : DB := ⟨[], [], [], 0⟩

/-- `Visited`: put an empty value at `u64ToBytes id` in the requests bucket. -/
def Visited (id : Nat) (db : DB) : DB :=
  { db with requests := bPut (u64ToBytes id) [] db.requests }

/-- `IsVisited`: whether `Get` on the requests bucket returns non-nil. -/
def IsVisited (id : Nat) (db : DB) : Bool :=
  (bGet (u64ToBytes id) db.requests).isSome

/-- `Cookies`: read the cookies bucket; Go's `string(nil)` is `""` when the
key is absent. -/
def Cookies (u : Bytes) (db : DB) : Bytes :=
  match bGet u db.cookies with
  | none => []
  | some v => v

/-- `SetCookies`: put the blob at the origin key in the cookies bucket. -/
def SetCookies (u v : Bytes) (db : DB) : DB :=
  { db with cookies := bPut u v db.cookies }

/-- `Cookies` with the store's view-transaction outcome made explicit: the Go
code discards the error returned by `db.View`, so when the transaction fails
the local `cookies` variable keeps its zero value `""`. -/
def CookiesV (viewOk : Bool) (u : Bytes) (db : DB) : Bytes :=
  if viewOk then Cookies u db else []

/-- `SetCookies` with the store's update-transaction outcome made explicit:
the Go code discards the error returned by `db.Update`, so a failed
transaction rolls back and the write is silently dropped. -/
def SetCookiesV (updateOk : Bool) (u v : Bytes) (db : DB) : DB :=
  if updateOk then SetCookies u v db else db

/-- `AddRequest`: draw `NextSequence` (increments the persisted uint64 counter
and returns the new value) and put the request at its encoding. -/
def AddRequest (request : Bytes) (db : DB) : DB :=
  let n := (db.seq + 1) % 2 ^ 64
  { db with seq := n, queue := bPut (u64ToBytes n) request db.queue }

/-- `GetRequest`: position a cursor at the first (lowest-key) queue entry;
if none, the update transaction aborts with `ErrEmptyQueue` (no state
change); otherwise the entry is deleted and its value returned. -/
def GetRequest (db : DB) : Except Err (Bytes × DB) :=
  match db.queue with
  | [] => .error ErrEmptyQueue
  | (_, v) :: rest => .ok (v, { db with queue := rest })

/-- `QueueSize`: `Stats().KeyN`, the number of keys in the queue bucket. -/
def QueueSize (db : DB) : Nat := db.queue.length

/-- A raw store in which buckets may not have been created yet; the queue
bucket carries its sequence counter. -/
structure RawDB where
  requests : Option Bucket
  cookies : Option Bucket
  queue : Option (Bucket × Nat)
deriving DecidableEq, Repr

/-- `CreateBucketIfNotExists`: returns the existing bucket, or creates an
empty one (fresh sequence 0). -/
def createIfNotExists (b : Option Bucket) : Bucket := b.getD []

/-- `Init`: create the three buckets if absent, in one update transaction.
The bucket names are fixed non-empty byte strings, so creation cannot fail
and the transaction commits. -/
def Init (r : RawDB) : Except Err RawDB :=
  .ok { requests := some (createIfNotExists r.requests),
        cookies := some (createIfNotExists r.cookies),
        queue := some ((r.queue.map Prod.fst).getD [], (r.queue.map Prod.snd).getD 0) }

/-- The mutating operations of the public surface, for reasoning about
reachable states as op traces from a fresh store. -/
inductive Op where
  | visited (id : Nat)
  | setCookies (u v : Bytes)
  | addRequest (r : Bytes)
  | getRequest
deriving DecidableEq, Repr

/-- One operation's effect on the store (a failed `GetRequest` aborts its
transaction, leaving the store unchanged). -/
def applyOp (db : DB) : Op → DB
  | .visited id => Visited id db
  | .setCookies u v => SetCookies u v db
  | .addRequest r => AddRequest r db
  | .getRequest =>
    match GetRequest db with
    | .ok (_, db') => db'
    | .error _ => db

/-- Run a trace of operations from a given state. -/
def run (db : DB) : List Op → DB
  | [] => db
  | op :: tr => run (applyOp db op) tr

/-- Number of enqueue calls in a trace. -/
def countAdd : List Op → Nat
  | [] => 0
  | .addRequest _ :: tr => countAdd tr + 1
  | _ :: tr => countAdd tr

/-- Number of dequeue calls that succeed (do not return `ErrEmptyQueue`)
when the trace runs from `db`. -/
def countGetOk (db : DB) : List Op → Nat
  | [] => 0
  | .getRequest :: tr =>
    (match GetRequest db with | .ok _ => 1 | .error _ => 0) +
      countGetOk (applyOp db .getRequest) tr
  | op :: tr => countGetOk (applyOp db op) tr

/-- Reassemble a `u64ToBytes` image; inverse of the codec below `2^64`. -/
def bytesToU64 : Bytes → Nat
  | [b0, b1, b2, b3, b4, b5, b6, b7] =>
    b0 + 2 ^ 8 * b1 + 2 ^ 16 * b2 + 2 ^ 24 * b3 +
      2 ^ 32 * b4 + 2 ^ 40 * b5 + 2 ^ 48 * b6 + 2 ^ 56 * b7
  | _ => 0

/-- The payload a `GetRequest` call returns, `none` on `ErrEmptyQueue`. -/
def firstDequeued (db : DB) : Option Bytes :=
  match GetRequest db with
  | .ok (v, _) => some v
  | .error _ => none

/-- A trace of 254 enqueue/dequeue pairs: it leaves the queue empty and the
queue bucket's persisted sequence counter at 254. -/
def seqTrace254 : List Op :=
  (List.replicate 254 [Op.addRequest [0], Op.getRequest]).flatten

/-- Invariant tying a store to the counts of enqueues (`a`) and successful
dequeues (`g`) performed on it: the sequence equals `a`, the queue holds
`a - g` entries, and every queue key encodes a drawn sequence number. -/
def QInv (db : DB) (a g : Nat) : Prop :=
  db.seq = a ∧ db.queue.length + g = a ∧
    ∀ p ∈ db.queue, ∃ j, 1 ≤ j ∧ j ≤ a ∧ p.1 = u64ToBytes j

/-! ### Order lemmas for the byte-lexicographic key comparison -/

theorem lexLt_irrefl (a : Bytes) : lexLt a a = false := by
  induction a with
  | nil => rfl
  | cons x as ih => simp [lexLt, ih]

theorem lexLt_trans (a : Bytes) : ∀ b c : Bytes,
    lexLt a b = true → lexLt b c = true → lexLt a c = true := by
  induction a with
  | nil =>
    intro b c hab hbc
    cases b <;> cases c <;> simp_all [lexLt]
  | cons x as ih =>
    intro b c hab hbc
    cases b with
    | nil => simp [lexLt] at hab
    | cons y bs =>
      cases c with
      | nil => simp [lexLt] at hbc
      | cons z cs =>
        simp only [lexLt] at hab hbc ⊢
        split_ifs at hab hbc ⊢ <;>
          first
          | rfl
          | omega
          | exact ih bs cs hab hbc

theorem lexLt_total (a : Bytes) : ∀ b : Bytes,
    a ≠ b → lexLt a b = true ∨ lexLt b a = true := by
  induction a with
  | nil =>
    intro b hne
    cases b with
    | nil => exact absurd rfl hne
    | cons y bs => left; rfl
  | cons x as ih =>
    intro b hne
    cases b with
    | nil => right; rfl
    | cons y bs =>
      by_cases hxy : x = y
      · subst hxy
        have hne' : as ≠ bs := by
          intro h; exact hne (by rw [h])
        rcases ih bs hne' with h | h
        · left; simp [lexLt, h]
        · right; simp [lexLt, h]
      · rcases Nat.lt_or_ge x y with h | h
        · left; simp [lexLt, h]
        · have : y < x := by omega
          right; simp [lexLt, this]

/-! ### Bucket lemmas -/

theorem bGet_bPut_same (k v : Bytes) (m : Bucket) :
    bGet k (bPut k v m) = some v := by
  induction m with
  | nil => simp [bPut, bGet]
  | cons p rest ih =>
    obtain ⟨k', v'⟩ := p
    by_cases h1 : lexLt k k' = true
    · simp [bPut, h1, bGet]
    · by_cases h2 : k = k'
      · simp [bPut, h1, h2, bGet, lexLt_irrefl]
      · simp [bPut, h1, h2, bGet, ih]

theorem bGet_bPut_ne (k k' v : Bytes) (m : Bucket) (hne : k ≠ k') :
    bGet k (bPut k' v m) = bGet k m := by
  induction m with
  | nil => simp [bPut, bGet, hne]
  | cons p rest ih =>
    obtain ⟨k'', v''⟩ := p
    by_cases h1 : lexLt k' k'' = true
    · simp [bPut, h1, bGet, hne]
    · by_cases h2 : k' = k''
      · subst h2
        simp [bPut, h1, bGet, hne]
      · simp [bPut, h1, h2, bGet, ih]

theorem bPut_bPut_same (k v : Bytes) (m : Bucket) :
    bPut k v (bPut k v m) = bPut k v m := by
  induction m with
  | nil => simp [bPut, lexLt_irrefl]
  | cons p rest ih =>
    obtain ⟨k', v'⟩ := p
    by_cases h1 : lexLt k k' = true
    · simp [bPut, h1, lexLt_irrefl]
    · by_cases h2 : k = k'
      · simp [bPut, h1, h2, lexLt_irrefl]
      · simp [bPut, h1, h2, ih]

theorem bGet_eq_none_iff (k : Bytes) (m : Bucket) :
    bGet k m = none ↔ ∀ p ∈ m, p.1 ≠ k := by
  induction m with
  | nil => simp [bGet]
  | cons p rest ih =>
    obtain ⟨k', v'⟩ := p
    by_cases h : k = k'
    · subst h; simp [bGet]
    · simp [bGet, h, ih, Ne.symm h]

theorem bPut_length_fresh (k v : Bytes) (m : Bucket) (h : bGet k m = none) :
    (bPut k v m).length = m.length + 1 := by
  induction m with
  | nil => rfl
  | cons p rest ih =>
    obtain ⟨k', v'⟩ := p
    by_cases h2 : k = k'
    · simp [bGet, h2] at h
    · simp only [bGet, if_neg h2] at h
      by_cases h1 : lexLt k k' = true
      · simp [bPut, h1]
      · simp [bPut, h1, h2, ih h]

theorem mem_bPut (k v : Bytes) (m : Bucket) (p : Bytes × Bytes)
    (hp : p ∈ bPut k v m) : p.1 = k ∨ p ∈ m := by
  induction m with
  | nil =>
    simp [bPut] at hp
    left; rw [hp]
  | cons q rest ih =>
    obtain ⟨k', v'⟩ := q
    by_cases h1 : lexLt k k' = true
    · simp only [bPut, if_pos h1, List.mem_cons] at hp
      rcases hp with h | h | h
      · left; rw [h]
      · right; simp [h]
      · right; simp [h]
    · by_cases h2 : k = k'
      · simp only [bPut, if_neg h1, if_pos h2, List.mem_cons] at hp
        rcases hp with h | h
        · left; rw [h]
        · right; simp [h]
      · simp only [bPut, if_neg h1, if_neg h2, List.mem_cons] at hp
        rcases hp with h | h
        · right; simp [h]
        · rcases ih h with h' | h'
          · left; exact h'
          · right; simp [h']

theorem bSorted_cons (p : Bytes × Bytes) (m : Bucket) (h : bSorted (p :: m) = true) :
    bSorted m = true ∧ ∀ q ∈ m, lexLt p.1 q.1 = true := by
  induction m generalizing p with
  | nil => exact ⟨rfl, by simp⟩
  | cons q rest ih =>
    simp only [bSorted, Bool.and_eq_true] at h
    obtain ⟨hpq, hrest⟩ := h
    obtain ⟨hs, hall⟩ := ih q hrest
    refine ⟨hrest, ?_⟩
    intro r hr
    rcases List.mem_cons.mp hr with h | h
    · rw [h]; exact hpq
    · exact lexLt_trans p.1 q.1 r.1 hpq (hall r h)

theorem bSorted_cons_of (p : Bytes × Bytes) (m : Bucket)
    (hall : ∀ q ∈ m, lexLt p.1 q.1 = true) (hm : bSorted m = true) :
    bSorted (p :: m) = true := by
  cases m with
  | nil => rfl
  | cons q rest =>
    simp only [bSorted, Bool.and_eq_true]
    exact ⟨hall q (by simp), hm⟩

theorem bPut_sorted (k v : Bytes) (m : Bucket) (h : bSorted m = true) :
    bSorted (bPut k v m) = true := by
  induction m with
  | nil => rfl
  | cons p rest ih =>
    obtain ⟨k', v'⟩ := p
    obtain ⟨hrest, hall⟩ := bSorted_cons _ _ h
    by_cases h1 : lexLt k k' = true
    · simp only [bPut, if_pos h1]
      refine bSorted_cons_of _ _ ?_ h
      intro q hq
      rcases List.mem_cons.mp hq with h' | h'
      · rw [h']; exact h1
      · exact lexLt_trans k k' q.1 h1 (hall q h')
    · by_cases h2 : k = k'
      · simp only [bPut, if_neg h1, if_pos h2]
        refine bSorted_cons_of _ _ ?_ hrest
        intro q hq
        rw [h2]; exact hall q hq
      · simp only [bPut, if_neg h1, if_neg h2]
        have hk'k : lexLt k' k = true := by
          rcases lexLt_total k k' h2 with h' | h'
          · exact absurd h' h1
          · exact h'
        refine bSorted_cons_of _ _ ?_ (ih hrest)
        intro q hq
        rcases mem_bPut k v rest q hq with h' | h'
        · rw [h']; exact hk'k
        · exact hall q h'

/-! ### Key codec lemmas -/

theorem bytesToU64_u64ToBytes (n : Nat) (h : n < 2 ^ 64) :
    bytesToU64 (u64ToBytes n) = n := by
  simp only [u64ToBytes, bytesToU64, Nat.shiftRight_eq_div_pow]
  omega

theorem u64ToBytes_inj (a b : Nat) (ha : a < 2 ^ 64) (hb : b < 2 ^ 64)
    (h : u64ToBytes a = u64ToBytes b) : a = b := by
  have := bytesToU64_u64ToBytes a ha
  have := bytesToU64_u64ToBytes b hb
  rw [← bytesToU64_u64ToBytes a ha, ← bytesToU64_u64ToBytes b hb, h]

/-! ### Trace lemmas: which bucket each operation can touch -/

theorem requests_applyOp_ne (db : DB) (op : Op)
    (h : ∀ i, op = Op.visited i → False) :
    (applyOp db op).requests = db.requests := by
  cases op with
  | visited id => exact absurd rfl (h id)
  | setCookies u v => rfl
  | addRequest r => rfl
  | getRequest =>
    cases hq : db.queue with
    | nil => simp [applyOp, GetRequest, hq]
    | cons p rest => simp [applyOp, GetRequest, hq]

theorem cookies_applyOp_ne (db : DB) (op : Op)
    (h : ∀ u v, op = Op.setCookies u v → False) :
    (applyOp db op).cookies = db.cookies := by
  cases op with
  | visited id => rfl
  | setCookies u v => exact absurd rfl (h u v)
  | addRequest r => rfl
  | getRequest =>
    cases hq : db.queue with
    | nil => simp [applyOp, GetRequest, hq]
    | cons p rest => simp [applyOp, GetRequest, hq]

theorem run_cookies_none (u : Bytes) (tr : List Op) :
    ∀ db : DB, bGet u db.cookies = none → (∀ w, Op.setCookies u w ∉ tr) →
      bGet u (run db tr).cookies = none := by
  induction tr with
  | nil =>
    intro db h _
    exact h
  | cons op tr ih =>
    intro db h hnot
    have hop : bGet u (applyOp db op).cookies = none := by
      cases op with
      | setCookies u' w =>
        have hne : u ≠ u' := by
          intro he
          subst he
          exact hnot w (by simp)
        rw [show (applyOp db (Op.setCookies u' w)).cookies = bPut u' w db.cookies from rfl]
        rw [bGet_bPut_ne u u' w db.cookies hne]
        exact h
      | visited id => rw [cookies_applyOp_ne db _ (by intro a b hc; cases hc)]; exact h
      | addRequest r => rw [cookies_applyOp_ne db _ (by intro a b hc; cases hc)]; exact h
      | getRequest => rw [cookies_applyOp_ne db _ (by intro a b hc; cases hc)]; exact h
    exact ih _ hop (fun w hw => hnot w (List.mem_cons_of_mem _ hw))

theorem run_requests_none (id : Nat) (hid : id < 2 ^ 64) (tr : List Op) :
    ∀ db : DB, bGet (u64ToBytes id) db.requests = none →
      (∀ i, Op.visited i ∈ tr → i < 2 ^ 64) →
      Op.visited id ∉ tr →
      bGet (u64ToBytes id) (run db tr).requests = none := by
  induction tr with
  | nil =>
    intro db h _ _
    exact h
  | cons op tr ih =>
    intro db h hb hnot
    have hop : bGet (u64ToBytes id) (applyOp db op).requests = none := by
      cases op with
      | visited i =>
        have hii : i ≠ id := by
          intro he
          subst he
          exact hnot (by simp)
        have hi64 : i < 2 ^ 64 := hb i (by simp)
        have hne : u64ToBytes id ≠ u64ToBytes i := by
          intro he
          exact hii (u64ToBytes_inj i id hi64 hid he.symm)
        rw [show (applyOp db (Op.visited i)).requests = bPut (u64ToBytes i) [] db.requests from rfl]
        rw [bGet_bPut_ne _ _ _ db.requests hne]
        exact h
      | setCookies u v => rw [requests_applyOp_ne db _ (by intro a hc; cases hc)]; exact h
      | addRequest r => rw [requests_applyOp_ne db _ (by intro a hc; cases hc)]; exact h
      | getRequest => rw [requests_applyOp_ne db _ (by intro a hc; cases hc)]; exact h
    exact ih _ hop (fun i hi => hb i (List.mem_cons_of_mem _ hi))
      (fun hw => hnot (List.mem_cons_of_mem _ hw))

theorem run_requests_isSome (id : Nat) (tr : List Op) :
    ∀ db : DB, (bGet (u64ToBytes id) db.requests).isSome = true →
      (bGet (u64ToBytes id) (run db tr).requests).isSome = true := by
  induction tr with
  | nil =>
    intro db h
    exact h
  | cons op tr ih =>
    intro db h
    refine ih _ ?_
    cases op with
    | visited i =>
      by_cases he : u64ToBytes id = u64ToBytes i
      · rw [show (applyOp db (Op.visited i)).requests = bPut (u64ToBytes i) [] db.requests from rfl]
        rw [← he, bGet_bPut_same]
        rfl
      · rw [show (applyOp db (Op.visited i)).requests = bPut (u64ToBytes i) [] db.requests from rfl]
        rw [bGet_bPut_ne _ _ _ db.requests he]
        exact h
    | setCookies u v => rw [requests_applyOp_ne db _ (by intro a hc; cases hc)]; exact h
    | addRequest r => rw [requests_applyOp_ne db _ (by intro a hc; cases hc)]; exact h
    | getRequest => rw [requests_applyOp_ne db _ (by intro a hc; cases hc)]; exact h

theorem run_visited_mem (id : Nat) (tr : List Op) :
    ∀ db : DB, Op.visited id ∈ tr → IsVisited id (run db tr) = true := by
  induction tr with
  | nil =>
    intro db h
    cases h
  | cons op tr ih =>
    intro db h
    rcases List.mem_cons.mp h with heq | hmem
    · subst heq
      rw [show run db (Op.visited id :: tr) = run (Visited id db) tr from rfl]
      refine run_requests_isSome id tr _ ?_
      rw [show (Visited id db).requests = bPut (u64ToBytes id) [] db.requests from rfl]
      rw [bGet_bPut_same]
      rfl
    · exact ih _ hmem

theorem Visited_Visited (id : Nat) (db : DB) :
    Visited id (Visited id db) = Visited id db := by
  simp [Visited, bPut_bPut_same]

theorem run_replicate_visited (id : Nat) (db : DB) :
    ∀ n, run (Visited id db) (List.replicate n (Op.visited id)) = Visited id db := by
  intro n
  induction n with
  | zero => rfl
  | succ n ihn =>
    rw [List.replicate_succ]
    rw [show run (Visited id db) (Op.visited id :: List.replicate n (Op.visited id)) =
      run (Visited id (Visited id db)) (List.replicate n (Op.visited id)) from rfl]
    rw [Visited_Visited]
    exact ihn

/-! ### Queue counting invariant -/

theorem qinv_preserved_noqueue (db : DB) (a g : Nat) (op : Op) (h : QInv db a g)
    (hq : (applyOp db op).queue = db.queue) (hs : (applyOp db op).seq = db.seq) :
    QInv (applyOp db op) a g := by
  obtain ⟨h1, h2, h3⟩ := h
  exact ⟨by rw [hs, h1], by rw [hq]; exact h2, by rw [hq]; exact h3⟩

theorem qinv_run (tr : List Op) :
    ∀ db a g, QInv db a g → a + countAdd tr < 2 ^ 64 →
      QInv (run db tr) (a + countAdd tr) (g + countGetOk db tr) := by
  induction tr with
  | nil =>
    intro db a g h _
    simpa [run, countAdd, countGetOk] using h
  | cons op tr ih =>
    intro db a g h hb
    cases op with
    | visited i =>
      have h' : QInv (applyOp db (Op.visited i)) a g :=
        qinv_preserved_noqueue db a g _ h rfl rfl
      have := ih (applyOp db (Op.visited i)) a g h' (by simpa [countAdd] using hb)
      simpa [run, countAdd, countGetOk] using this
    | setCookies u v =>
      have h' : QInv (applyOp db (Op.setCookies u v)) a g :=
        qinv_preserved_noqueue db a g _ h rfl rfl
      have := ih (applyOp db (Op.setCookies u v)) a g h' (by simpa [countAdd] using hb)
      simpa [run, countAdd, countGetOk] using this
    | getRequest =>
      cases hq : db.queue with
      | nil =>
        have happ : applyOp db Op.getRequest = db := by
          simp [applyOp, GetRequest, hq]
        have hcnt : countGetOk db (Op.getRequest :: tr) =
            countGetOk (applyOp db Op.getRequest) tr := by
          simp [countGetOk, GetRequest, hq]
        have := ih (applyOp db Op.getRequest) a g (by rw [happ]; exact h)
          (by simpa [countAdd] using hb)
        rw [show run db (Op.getRequest :: tr) = run (applyOp db Op.getRequest) tr from rfl]
        rw [show countAdd (Op.getRequest :: tr) = countAdd tr from rfl, hcnt]
        exact this
      | cons p rest =>
        obtain ⟨k, v⟩ := p
        have happ : applyOp db Op.getRequest = { db with queue := rest } := by
          simp [applyOp, GetRequest, hq]
        obtain ⟨h1, h2, h3⟩ := h
        have h' : QInv (applyOp db Op.getRequest) a (g + 1) := by
          rw [happ]
          refine ⟨h1, ?_, ?_⟩
          · show rest.length + (g + 1) = a
            have : db.queue.length = rest.length + 1 := by rw [hq]; rfl
            omega
          · intro q hqmem
            exact h3 q (by rw [hq]; exact List.mem_cons_of_mem _ hqmem)
        have hcnt : countGetOk db (Op.getRequest :: tr) =
            1 + countGetOk (applyOp db Op.getRequest) tr := by
          simp [countGetOk, GetRequest, hq]
        have := ih (applyOp db Op.getRequest) a (g + 1) h' (by simpa [countAdd] using hb)
        rw [show run db (Op.getRequest :: tr) = run (applyOp db Op.getRequest) tr from rfl]
        rw [show countAdd (Op.getRequest :: tr) = countAdd tr from rfl, hcnt]
        have harith : g + (1 + countGetOk (applyOp db Op.getRequest) tr) =
            g + 1 + countGetOk (applyOp db Op.getRequest) tr := by omega
        rw [harith]
        exact this
    | addRequest r =>
      obtain ⟨h1, h2, h3⟩ := h
      have hb1 : a + 1 < 2 ^ 64 := by
        have : countAdd (Op.addRequest r :: tr) = countAdd tr + 1 := rfl
        omega
      have hn : (db.seq + 1) % 2 ^ 64 = a + 1 := by
        rw [h1]
        exact Nat.mod_eq_of_lt hb1
      have hfresh : bGet (u64ToBytes (a + 1)) db.queue = none := by
        rw [bGet_eq_none_iff]
        intro q hqmem he
        obtain ⟨j, hj1, hj2, hj3⟩ := h3 q hqmem
        rw [hj3] at he
        have : j = a + 1 := u64ToBytes_inj j (a + 1) (by omega) hb1 he
        omega
      have happ : applyOp db (Op.addRequest r) =
          { db with seq := a + 1, queue := bPut (u64ToBytes (a + 1)) r db.queue } := by
        have hdef : applyOp db (Op.addRequest r) =
            { db with seq := (db.seq + 1) % 2 ^ 64,
                      queue := bPut (u64ToBytes ((db.seq + 1) % 2 ^ 64)) r db.queue } := rfl
        rw [hdef, hn]
      have h' : QInv (applyOp db (Op.addRequest r)) (a + 1) g := by
        rw [happ]
        refine ⟨rfl, ?_, ?_⟩
        · have := bPut_length_fresh (u64ToBytes (a + 1)) r db.queue hfresh
          simp only [this]
          omega
        · intro q hqmem
          rcases mem_bPut _ _ _ q hqmem with hk | hmem
          · exact ⟨a + 1, by omega, by omega, hk⟩
          · obtain ⟨j, hj1, hj2, hj3⟩ := h3 q hmem
            exact ⟨j, hj1, by omega, hj3⟩
      have := ih (applyOp db (Op.addRequest r)) (a + 1) g h'
        (by simp only [countAdd] at hb ⊢; omega)
      rw [show run db (Op.addRequest r :: tr) = run (applyOp db (Op.addRequest r)) tr from rfl]
      rw [show countAdd (Op.addRequest r :: tr) = countAdd tr + 1 from rfl]
      rw [show countGetOk db (Op.addRequest r :: tr) =
        countGetOk (applyOp db (Op.addRequest r)) tr from rfl]
      have harith : a + (countAdd tr + 1) = a + 1 + countAdd tr := by omega
      rw [harith]
      exact this

/-! ### Claim theorems -/

/-- Claim C1 fails on the code: `u64ToBytes` emits the least-significant byte
first, so the encoding is not order-preserving under the byte-lexicographic
comparison the bbolt cursor uses.  At the failing input 1 < 256, the encoding
of 256 sorts strictly before the encoding of 1. -/
theorem codec_order_violation :
    (1 : Nat) < 256 ∧
    lexLt (u64ToBytes 1) (u64ToBytes 256) = false ∧
    lexLt (u64ToBytes 256) (u64ToBytes 1) = true := by decide

set_option maxRecDepth 100000 in
/-- Claim C2 fails on the code: from the reachable state left by 254
enqueue/dequeue pairs (queue empty, sequence counter 254), enqueueing
payloads [1], [2], [3] and dequeuing three times returns [2], then [3],
then [1] — not insertion order — because the keys for sequence numbers
255, 256, 257 sort as 256 < 257 < 255 under the cursor's byte order. -/
theorem fifo_violation :
    (run initDB seqTrace254).queue = [] ∧
    firstDequeued (AddRequest [3] (AddRequest [2] (AddRequest [1]
      (run initDB seqTrace254)))) = some [2] ∧
    firstDequeued (applyOp (AddRequest [3] (AddRequest [2] (AddRequest [1]
      (run initDB seqTrace254)))) Op.getRequest) = some [3] ∧
    firstDequeued (applyOp (applyOp (AddRequest [3] (AddRequest [2] (AddRequest [1]
      (run initDB seqTrace254)))) Op.getRequest) Op.getRequest) = some [1] := by
  decide

/-- Claim C3: dequeue on an empty queue partition returns the distinguished
`ErrEmptyQueue` (distinct from every storage error), the update transaction
aborts, and the store state is unchanged. -/
theorem getRequest_empty_aborts (db : DB) (h : db.queue = []) :
    GetRequest db = .error ErrEmptyQueue ∧
    applyOp db Op.getRequest = db ∧
    ∀ s, ErrEmptyQueue ≠ Err.storage s := by
  refine ⟨by simp [GetRequest, h], by simp [applyOp, GetRequest, h], ?_⟩
  intro s
  simp [ErrEmptyQueue]

theorem getRequest_empty_aborts_witness :
    GetRequest initDB = .error ErrEmptyQueue :=
  (getRequest_empty_aborts initDB rfl).1

/-- Claim C4: a successful dequeue returns the value of the entry with the
lexicographically lowest key in the queue partition, removes exactly that
entry, and leaves the rest of the queue and the requests and cookies
partitions (and the sequence counter) unchanged. -/
theorem getRequest_removes_min (db : DB) (k v : Bytes) (rest : Bucket)
    (hq : db.queue = (k, v) :: rest) (hs : bSorted db.queue = true) :
    GetRequest db = .ok (v, { db with queue := rest }) ∧
    (∀ p ∈ rest, lexLt k p.1 = true) ∧
    ({ db with queue := rest }).requests = db.requests ∧
    ({ db with queue := rest }).cookies = db.cookies ∧
    ({ db with queue := rest }).seq = db.seq := by
  refine ⟨by simp [GetRequest, hq], ?_, rfl, rfl, rfl⟩
  rw [hq] at hs
  exact (bSorted_cons (k, v) rest hs).2

theorem getRequest_removes_min_witness :
    GetRequest ⟨[], [], [(u64ToBytes 1, [7]), (u64ToBytes 2, [9])], 2⟩ =
      .ok ([7], { (⟨[], [], [(u64ToBytes 1, [7]), (u64ToBytes 2, [9])], 2⟩ : DB) with
        queue := [(u64ToBytes 2, [9])] }) :=
  (getRequest_removes_min ⟨[], [], [(u64ToBytes 1, [7]), (u64ToBytes 2, [9])], 2⟩
    (u64ToBytes 1) [7] [(u64ToBytes 2, [9])] rfl (by decide)).1

/-- Claim C5: for a 64-bit id, `IsVisited id` is false in every reachable
state whose history contains no `Visited id` call, is true once the history
contains one, and after a `Visited id` call any number of further
`Visited id` calls leave the store unchanged with `IsVisited id` still true. -/
theorem visited_idempotent_lifecycle (tr : List Op) (id : Nat) (hid : id < 2 ^ 64)
    (hids : ∀ i, Op.visited i ∈ tr → i < 2 ^ 64) :
    (Op.visited id ∉ tr → IsVisited id (run initDB tr) = false) ∧
    (Op.visited id ∈ tr → IsVisited id (run initDB tr) = true) ∧
    IsVisited id (Visited id (run initDB tr)) = true ∧
    ∀ n, run (Visited id (run initDB tr)) (List.replicate n (Op.visited id)) =
      Visited id (run initDB tr) := by
  refine ⟨?_, ?_, ?_, ?_⟩
  · intro hnot
    have hnone : bGet (u64ToBytes id) (run initDB tr).requests = none :=
      run_requests_none id hid tr initDB rfl hids hnot
    simp [IsVisited, hnone]
  · intro hmem
    exact run_visited_mem id tr initDB hmem
  · show (bGet (u64ToBytes id)
      (bPut (u64ToBytes id) [] (run initDB tr).requests)).isSome = true
    rw [bGet_bPut_same]
    rfl
  · exact run_replicate_visited id (run initDB tr)

theorem visited_idempotent_lifecycle_witness :
    IsVisited 7 (run initDB [Op.visited 42]) = false :=
  (visited_idempotent_lifecycle [Op.visited 42] 7 (by decide)
      (by
        intro i hi
        simp only [List.mem_singleton, Op.visited.injEq] at hi
        subst hi
        decide)).1
    (by
      intro hmem
      simp only [List.mem_singleton, Op.visited.injEq] at hmem
      omega)

/-- Claim C6: at every observation point, `QueueSize` equals the number of
enqueues minus the number of successful dequeues performed since
initialization (dequeues that returned `ErrEmptyQueue` not counted), for
every history short enough that the uint64 sequence counter does not wrap. -/
theorem queueSize_eq_counts (tr : List Op) (h : countAdd tr < 2 ^ 64) :
    QueueSize (run initDB tr) = countAdd tr - countGetOk initDB tr ∧
    countGetOk initDB tr ≤ countAdd tr := by
  have h0 : QInv initDB 0 0 := ⟨rfl, rfl, by intro p hp; cases hp⟩
  have hinv := qinv_run tr initDB 0 0 h0 (by omega)
  obtain ⟨h1, h2, h3⟩ := hinv
  constructor
  · show (run initDB tr).queue.length = _
    omega
  · omega

theorem queueSize_eq_counts_witness :
    QueueSize (run initDB [Op.addRequest [1], Op.addRequest [2], Op.getRequest]) =
      countAdd [Op.addRequest [1], Op.addRequest [2], Op.getRequest] -
        countGetOk initDB [Op.addRequest [1], Op.addRequest [2], Op.getRequest] :=
  (queueSize_eq_counts [Op.addRequest [1], Op.addRequest [2], Op.getRequest]
    (by decide)).1

/-- Claim C7: `SetCookies` at an origin followed immediately by `Cookies` at
that origin returns the written value, in any state; and `Cookies` at an
origin never written in the store's history returns the empty string. -/
theorem cookies_roundtrip (u v : Bytes) (db : DB) (tr : List Op)
    (h : ∀ w, Op.setCookies u w ∉ tr) :
    Cookies u (SetCookies u v db) = v ∧ Cookies u (run initDB tr) = [] := by
  constructor
  · simp [Cookies, SetCookies, bGet_bPut_same]
  · have hnone : bGet u (run initDB tr).cookies = none :=
      run_cookies_none u tr initDB rfl h
    simp [Cookies, hnone]

theorem cookies_roundtrip_witness :
    Cookies [7] (SetCookies [7] [1, 2] initDB) = [1, 2] ∧
    Cookies [7] (run initDB []) = [] :=
  cookies_roundtrip [7] [1, 2] initDB [] (by intro w hw; cases hw)

/-- Claim C8: the cookie operations never surface a storage error — when the
store transaction fails, `Cookies` returns the same empty string as a lookup
on a store with no entry and `SetCookies` leaves the store unchanged; when it
succeeds they behave as the plain read and write. -/
theorem cookie_ops_swallow_store_errors (u v : Bytes) (db : DB) :
    CookiesV false u db = [] ∧
    CookiesV false u db = Cookies u initDB ∧
    SetCookiesV false u v db = db ∧
    CookiesV true u db = Cookies u db ∧
    SetCookiesV true u v db = SetCookies u v db :=
  ⟨rfl, rfl, rfl, rfl, rfl⟩

/-- Claim C9: `Init` on a store whose three buckets already exist (with
arbitrary contents and sequence counter) succeeds and changes nothing. -/
theorem init_idempotent (r : RawDB) (b1 b2 : Bucket) (q : Bucket × Nat)
    (h1 : r.requests = some b1) (h2 : r.cookies = some b2) (h3 : r.queue = some q) :
    Init r = .ok r := by
  obtain ⟨r1, r2, r3⟩ := r
  obtain ⟨qb, qs⟩ := q
  simp only at h1 h2 h3
  subst h1
  subst h2
  subst h3
  simp [Init, createIfNotExists]

theorem init_idempotent_witness :
    Init ⟨some [([1], [2])], some [], some ([], 5)⟩ =
      .ok ⟨some [([1], [2])], some [], some ([], 5)⟩ :=
  init_idempotent _ [([1], [2])] [] ([], 5) rfl rfl rfl

/-- Claim C10: writing the empty cookie string at an origin and reading it
back returns the empty string, the same observation as an origin never
written — the interface cannot distinguish an empty entry from an absent
one. -/
theorem setCookies_empty_equals_absent (u : Bytes) (db : DB) :
    Cookies u (SetCookies u [] db) = [] ∧
    Cookies u (SetCookies u [] db) = Cookies u initDB := by
  have h : Cookies u (SetCookies u [] db) = [] := by
    simp [Cookies, SetCookies, bGet_bPut_same]
  exact ⟨h, by rw [h]; rfl⟩

end CollyBolt
